import Mathlib

/-!
Shallow embedding of the card domain model of the DDS solver proposal
(`CardDefs.h`): strains, suits, ranks, directions, positions and 13-bit
rank sets, together with proofs of the specified properties.

Machine integers (`unsigned char`, `unsigned short`) are modelled as `Nat`;
the C++ values involved are small enough that no arithmetic below overflows,
except where a 16-bit complement is taken, which is written explicitly with
the mask `0xFFFF`.
-/

namespace DDS

/-! ## Strain (StrainT template, instantiated with noTrumpOk = true)

The `value` field is 0 = Spades, 1 = Hearts, 2 = Diamonds, 3 = Clubs and,
for `Strain` only, 4 = NoTrump.  Comparison operators are translated from
`StrainT::operator></operator>=/operator</operator<=/operator==/operator!=`.
-/

structure Strain where
  val : Nat
deriving DecidableEq, Repr

/-- Validity of a `Strain` (`checkValid` with `noTrumpOk`): value at most 4. -/
def Strain.isValid (a : Strain) : Prop := a.val ≤ 4

instance (a : Strain) : Decidable a.isValid := by
  unfold Strain.isValid; infer_instance

/-- StrainT::operator> : `if (rhs.value == 4) return false; return value < rhs.value;` -/
def Strain.gtOp (a b : Strain) : Bool :=
  if b.val = 4 then false else decide (a.val < b.val)

/-- StrainT::operator>= : `if (rhs.value == 4) return value == 4; return value <= rhs.value;` -/
def Strain.geOp (a b : Strain) : Bool :=
  if b.val = 4 then decide (a.val = 4) else decide (a.val ≤ b.val)

/-- StrainT::operator< : `if (value == 4) return false; return value > rhs.value;` -/
def Strain.ltOp (a b : Strain) : Bool :=
  if a.val = 4 then false else decide (b.val < a.val)

/-- StrainT::operator<= : `if (value == 4) return rhs.value == 4; return value >= rhs.value;` -/
def Strain.leOp (a b : Strain) : Bool :=
  if a.val = 4 then decide (b.val = 4) else decide (b.val ≤ a.val)

/-- StrainT::operator== : `return value == rhs.value;` -/
def Strain.eqOp (a b : Strain) : Bool :=
  decide (a.val = b.val)

/-- StrainT::operator!= : `return value == rhs.value;` (verbatim from the source). -/
def Strain.neOp (a b : Strain) : Bool :=
  decide (a.val = b.val)

/-- Strain::highToLow : `{ Strain(4), Strain(0), Strain(1), Strain(2), Strain(3) }`. -/
def Strain.highToLow : List Strain :=
  [⟨4⟩, ⟨0⟩, ⟨1⟩, ⟨2⟩, ⟨3⟩]

/-- Strain::lowToHigh : `{ Strain(0), Strain(3), Strain(2), Strain(1), Strain(0) }`
(verbatim from the source). -/
def Strain.lowToHigh : List Strain :=
  [⟨0⟩, ⟨3⟩, ⟨2⟩, ⟨1⟩, ⟨0⟩]

/-! ## Direction and Position -/

structure Direction where
  val : Nat
deriving DecidableEq, Repr

/-- Validity of a `Direction` (`checkValid`): value at most 3. -/
def Direction.isValid (d : Direction) : Prop := d.val ≤ 3

structure Position where
  val : Nat
deriving DecidableEq, Repr

/-- Validity of a `Position` (`checkValid`): value at most 3. -/
def Position.isValid (p : Position) : Prop := p.val ≤ 3

/-- Position::Position(Direction const & leading, Direction const & relative) :
`value ((leading + relative) & 3)`.  Both directions coerce to their numbers. -/
def Position.ofDirections (leading relative : Direction) : Position :=
  ⟨(leading.val + relative.val) &&& 3⟩

/-- Direction::operator+ (Position const & relative) :
`return Direction((value + relative.toNumber()) & 3);` -/
def Direction.addPosition (d : Direction) (p : Position) : Direction :=
  ⟨(d.val + p.val) &&& 3⟩

/-! ## Rank and its bit mask -/

structure Rank where
  val : Nat
deriving DecidableEq, Repr

/-- Validity of a `Rank` (`checkValid` with no 0, no 1, no 15): 2..14. -/
def Rank.isValid (r : Rank) : Prop := 2 ≤ r.val ∧ r.val ≤ 14

instance (r : Rank) : Decidable r.isValid := by
  unfold Rank.isValid; infer_instance

/-- Rank::bitMask table `bitMaskRankData` (entries 0, 1 and 15 are the
garbage fill values of the source, never read for a valid Rank). -/
def bitMaskRankData : List Nat :=
  [0xAE00, 0xAE01,
   0x0001, 0x0002, 0x0004, 0x0008, 0x0010, 0x0020,
   0x0040, 0x0080, 0x0100, 0x0200, 0x0400, 0x0800, 0x1000,
   0xAE0F]

/-- Rank::bitMask : `return bitMaskRankData[value];`. -/
def Rank.bitMask (r : Rank) : Nat :=
  bitMaskRankData.getD r.val 0

/-- Rank::highToLow : ranks from Ace (14) down to Deuce (2); this is also the
iteration order of the `for (Rank r = Rank::max(); r >= Rank::min(); r--)`
loops used to build the RankSet lookup tables. -/
def Rank.highToLow : List Rank :=
  [⟨14⟩, ⟨13⟩, ⟨12⟩, ⟨11⟩, ⟨10⟩, ⟨9⟩, ⟨8⟩, ⟨7⟩, ⟨6⟩, ⟨5⟩, ⟨4⟩, ⟨3⟩, ⟨2⟩]

/-! ## RankSet

The underlying `unsigned short value` is modelled as a `Nat`; the
representation invariant (`checkValid`) is `value ≤ RankSet::max() = 8191`.
The lazily built lookup tables of the source (`count`, `highestRank`,
`priorityIfInHand`, `winRanks`) are modelled by the loops that fill them,
evaluated at the queried entry.
-/

structure RankSet where
  val : Nat
deriving DecidableEq, Repr

/-- RankSet::max() : `(1 << Suit::numCards) - 1`, i.e. 8191. -/
def RankSet.maxVal : Nat := (1 <<< 13) - 1

/-- Validity of a `RankSet` (`checkValid`): value at most 8191. -/
def RankSet.isValid (s : RankSet) : Prop := s.val ≤ RankSet.maxVal

instance (s : RankSet) : Decidable s.isValid := by
  unfold RankSet.isValid; infer_instance

/-- RankSet::test : `return value & rank.bitMask();` (nonzero means present). -/
def RankSet.test (s : RankSet) (r : Rank) : Bool :=
  decide (s.val &&& r.bitMask ≠ 0)

/-- RankSet::none : `return value == 0;`. -/
def RankSet.noneOp (s : RankSet) : Bool :=
  decide (s.val = 0)

/-- RankSet::any : `return value != 0;`. -/
def RankSet.anyOp (s : RankSet) : Bool :=
  decide (s.val ≠ 0)

/-- RankSet::count : the table entry is filled by looping over ranks from
max down to min and incrementing for each rank the set tests positive on. -/
def RankSet.count (s : RankSet) : Nat :=
  Rank.highToLow.countP (fun r => s.test r)

/-- RankSet::highestRank : the table entry is the first rank, scanning from
max down to min, that the set tests positive on (absent for the empty set). -/
def RankSet.highestRank (s : RankSet) : Option Rank :=
  Rank.highToLow.find? (fun r => s.test r)

/-- Priority-table filling loop of RankSet::priorityIfInHand: walk the ranks
from max down to min keeping the running count `ord` of present ranks; the
entry for rank `r` is `ord` after its increment when `r` is present, 0 when
absent. -/
def prioScan (s : RankSet) (r : Rank) : List Rank → Nat → Nat
  | [], _ => 0
  | x :: rest, ord =>
    if s.test x then
      if x = r then ord + 1 else prioScan s r rest (ord + 1)
    else
      if x = r then 0 else prioScan s r rest ord

/-- RankSet::priorityIfInHand : return the table entry for `rank`, as an
optional Priority (`nullopt` when the entry is 0, i.e. the rank is absent);
rank values below 2 are rejected up front. -/
def RankSet.priorityIfInHand (s : RankSet) (r : Rank) : Option Nat :=
  if r.val < 2 then none
  else
    match prioScan s r Rank.highToLow 0 with
    | 0 => none
    | temp => some temp

/-- Inner loop of the RankSet::winRanks table fill for one `(rs, lw)` entry:
walk ranks from max down to min; a present rank is added to the result
(`result += r`, a bitwise or since the rank is not yet in the result) while
`nextBitNo <= lw`, and the loop breaks at the first present rank beyond. -/
def winLoop (s : RankSet) (lw : Nat) : List Rank → Nat → Nat → Nat
  | [], _, acc => acc
  | x :: rest, nextBitNo, acc =>
    if s.test x then
      if nextBitNo ≤ lw then winLoop s lw rest (nextBitNo + 1) (acc ||| x.bitMask)
      else acc
    else winLoop s lw rest nextBitNo acc

/-- RankSet::winRanks : the empty set for `leastWin == 0`, otherwise the
table entry filled by `winLoop` starting with `nextBitNo = 1` and an empty
result. -/
def RankSet.winRanks (s : RankSet) (leastWin : Nat) : RankSet :=
  if leastWin = 0 then ⟨0⟩ else ⟨winLoop s leastWin Rank.highToLow 1 0⟩

/-- RankSet::toSingleRank : the switch over the 13 single-bit values, with 0
and every multi-bit value giving `nullopt`. -/
def RankSet.toSingleRank (s : RankSet) : Option Rank :=
  match s.val with
  | 0x1000 => some ⟨14⟩
  | 0x0800 => some ⟨13⟩
  | 0x0400 => some ⟨12⟩
  | 0x0200 => some ⟨11⟩
  | 0x0100 => some ⟨10⟩
  | 0x0080 => some ⟨9⟩
  | 0x0040 => some ⟨8⟩
  | 0x0020 => some ⟨7⟩
  | 0x0010 => some ⟨6⟩
  | 0x0008 => some ⟨5⟩
  | 0x0004 => some ⟨4⟩
  | 0x0002 => some ⟨3⟩
  | 0x0001 => some ⟨2⟩
  | 0x0000 => none
  | _ => none

/-- RankSet::set(Rank) : `value |= rank.bitMask();`. -/
def RankSet.set (s : RankSet) (r : Rank) : RankSet :=
  ⟨s.val ||| r.bitMask⟩

/-- RankSet::reset(Rank) : `value &= ~rank.bitMask();`; the complement of
the 16-bit mask is written explicitly. -/
def RankSet.reset (s : RankSet) (r : Rank) : RankSet :=
  ⟨s.val &&& (0xFFFF ^^^ r.bitMask)⟩

/-- RankSet::flip(Rank) : `value ^= rank.bitMask();`. -/
def RankSet.flip (s : RankSet) (r : Rank) : RankSet :=
  ⟨s.val ^^^ r.bitMask⟩

/-- RankSet::operator~ : `return RankSet(~value & RankSet::max());`. -/
def RankSet.complOp (s : RankSet) : RankSet :=
  ⟨(0xFFFF ^^^ s.val) &&& RankSet.maxVal⟩

/-- RankSet::operator|= : `value |= other.toNumber();`. -/
def RankSet.orOp (s o : RankSet) : RankSet :=
  ⟨s.val ||| o.val⟩

/-- RankSet::operator&= : `value &= other.toNumber();`. -/
def RankSet.andOp (s o : RankSet) : RankSet :=
  ⟨s.val &&& o.val⟩

/-- RankSet::operator^= : `value ^= other.toNumber();`. -/
def RankSet.xorOp (s o : RankSet) : RankSet :=
  ⟨s.val ^^^ o.val⟩

/-- RankSet::operator+=(Rank) : asserts `!(rank.bitMask() & value)` and then
ors the mask in; the assertion failure branch is modelled as `none`. -/
def RankSet.plusAssignRank (s : RankSet) (r : Rank) : Option RankSet :=
  if r.bitMask &&& s.val = 0 then some ⟨s.val ||| r.bitMask⟩ else none

/-- RankSet::operator-=(Rank) : asserts `rank.bitMask() & value` (nonzero)
and then masks the bit out; the assertion failure branch is modelled as
`none`. -/
def RankSet.minusAssignRank (s : RankSet) (r : Rank) : Option RankSet :=
  if r.bitMask &&& s.val ≠ 0 then some ⟨s.val &&& (0xFFFF ^^^ r.bitMask)⟩ else none

/-- RankSet::operator+=(RankSet) : asserts `!(other.value & value)` and then
ors the other set in. -/
def RankSet.plusAssignSet (s o : RankSet) : Option RankSet :=
  if o.val &&& s.val = 0 then some ⟨s.val ||| o.val⟩ else none

/-- RankSet::operator-=(RankSet) : asserts `(other.value & value) == other.value`
and then masks the other set out. -/
def RankSet.minusAssignSet (s o : RankSet) : Option RankSet :=
  if o.val &&& s.val = o.val then some ⟨s.val &&& (0xFFFF ^^^ o.val)⟩ else none

/-! ## Helper lemmas about ranks, masks and bits -/

/-- The bit mask of a valid rank `r` is the single bit `2 ^ (r.val - 2)`. -/
theorem Rank.bitMask_of_isValid : ∀ r : Rank, r.isValid → r.bitMask = 2 ^ (r.val - 2) := by
  rintro ⟨v⟩ ⟨h2, h14⟩
  simp only at h2 h14
  interval_cases v <;> rfl

/-- The bit mask of a valid rank is below `2 ^ 13`. -/
theorem Rank.bitMask_lt_of_isValid (r : Rank) (hr : r.isValid) : r.bitMask < 2 ^ 13 := by
  rw [Rank.bitMask_of_isValid r hr]
  have h14 : r.val ≤ 14 := hr.2
  have : r.val - 2 ≤ 12 := by omega
  calc 2 ^ (r.val - 2) ≤ 2 ^ 12 := Nat.pow_le_pow_right (by norm_num) this
    _ < 2 ^ 13 := by norm_num

/-- A nonzero conjunction with a single bit is exactly a `testBit`. -/
theorem land_two_pow_ne_zero_iff (x i : Nat) : x &&& 2 ^ i ≠ 0 ↔ x.testBit i = true := by
  constructor
  · intro h
    by_contra hb
    apply h
    apply Nat.eq_of_testBit_eq
    intro j
    rw [Nat.testBit_land, Nat.testBit_two_pow, Nat.zero_testBit]
    rcases eq_or_ne i j with hij | hij
    · subst hij
      simp [Bool.eq_false_iff.mpr hb]
    · simp [hij]
  · intro h hz
    have hcongr := congrArg (fun n => n.testBit i) hz
    simp only [Nat.testBit_land, Nat.testBit_two_pow, Nat.zero_testBit, decide_eq_true_eq]
      at hcongr
    simp [h] at hcongr

/-- Membership testing of a valid rank is the `testBit` of its bit index. -/
theorem RankSet.test_eq_testBit (s : RankSet) (r : Rank) (hr : r.isValid) :
    s.test r = s.val.testBit (r.val - 2) := by
  rw [RankSet.test, Rank.bitMask_of_isValid r hr]
  rcases h : s.val.testBit (r.val - 2) with _ | _
  · simp only [decide_eq_false_iff_not, Decidable.not_not]
    by_contra hne
    rw [(land_two_pow_ne_zero_iff s.val (r.val - 2)).mp hne] at h
    exact Bool.noConfusion h
  · simp only [decide_eq_true_eq]
    exact (land_two_pow_ne_zero_iff s.val (r.val - 2)).mpr h

/-- The list of ranks high-to-low has no duplicates. -/
theorem ranks_nodup : Rank.highToLow.Nodup := by decide

/-- Every entry of the high-to-low rank list is a valid rank. -/
theorem ranks_valid : ∀ r ∈ Rank.highToLow, r.isValid := by decide

/-- The high-to-low rank list is strictly decreasing in rank value. -/
theorem ranks_sorted : Rank.highToLow.Pairwise (fun a b => b.val < a.val) := by decide

/-- Every valid rank occurs in the high-to-low rank list. -/
theorem mem_ranks_of_isValid : ∀ r : Rank, r.isValid → r ∈ Rank.highToLow := by
  rintro ⟨v⟩ ⟨h2, h14⟩
  simp only at h2 h14
  interval_cases v <;> decide

/-- The rank of value `i + 2` is in the list, for each bit index `i < 13`. -/
theorem rank_of_bit_mem : ∀ i : Nat, i < 13 → (⟨i + 2⟩ : Rank) ∈ Rank.highToLow := by decide

/-! ## Claim theorems: Strain, Direction, Position -/

/-- C1: evaluating the Strain comparison operators at Spades (0) and NoTrump (4)
shows that NoTrump is not treated as the distinguished maximum: Spades < NoTrump,
NoTrump > Spades, NoTrump >= Spades and Spades <= NoTrump all evaluate to false,
while the claim requires each of them to be true. -/
theorem strain_noTrump_not_maximum :
    Strain.ltOp ⟨0⟩ ⟨4⟩ = false ∧ Strain.gtOp ⟨4⟩ ⟨0⟩ = false ∧
      Strain.geOp ⟨4⟩ ⟨0⟩ = false ∧ Strain.leOp ⟨0⟩ ⟨4⟩ = false := by
  decide

/-- C2: evaluating the code at leading = East (1) and relative = North (0):
the Position constructor yields (1 + 0) & 3 = 1 (Second), and East + Second
is South (2), not North, so adding the constructed Position back to the
leading Direction does not recover the relative Direction. -/
theorem position_roundTrip_fails :
    Position.ofDirections ⟨1⟩ ⟨0⟩ = ⟨1⟩ ∧
      Direction.addPosition ⟨1⟩ (Position.ofDirections ⟨1⟩ ⟨0⟩) = ⟨2⟩ ∧
      (⟨2⟩ : Direction) ≠ (⟨0⟩ : Direction) := by
  decide

/-- C3: at the pair (Spades, Spades) both the equality operator and the
inequality operator of StrainT evaluate to true, so the inequality operator
is not the logical negation of the equality operator. -/
theorem strain_neOp_not_negation :
    Strain.eqOp ⟨0⟩ ⟨0⟩ = true ∧ Strain.neOp ⟨0⟩ ⟨0⟩ = true := by
  decide

/-- C4: Strain::lowToHigh contains Spades (0) twice, does not contain
NoTrump (4) at all, and is not the reverse of Strain::highToLow. -/
theorem strain_lowToHigh_wrong :
    Strain.lowToHigh.count ⟨0⟩ = 2 ∧ (⟨4⟩ : Strain) ∉ Strain.lowToHigh ∧
      Strain.lowToHigh ≠ Strain.highToLow.reverse := by
  decide

/-! ## Claim theorems: asserting RankSet arithmetic (C8) and the
representation invariant (C9) -/

/-- C8: under the precondition that rank `r` is absent from `s`, the asserting
operator `+=` does not hit its assertion-failure branch and returns exactly
`s.set r`; under the precondition that `r` is present, the asserting operator
`-=` does not hit its assertion-failure branch and returns exactly `s.reset r`. -/
theorem plusAssign_minusAssign_semantics (s : RankSet) (r : Rank) :
    (s.test r = false → s.plusAssignRank r = some (s.set r)) ∧
      (s.test r = true → s.minusAssignRank r = some (s.reset r)) := by
  constructor
  · intro h
    simp only [RankSet.test, decide_eq_false_iff_not, Decidable.not_not] at h
    simp [RankSet.plusAssignRank, RankSet.set, Nat.land_comm, h]
  · intro h
    simp only [RankSet.test, decide_eq_true_eq] at h
    rw [Nat.land_comm] at h
    simp [RankSet.minusAssignRank, RankSet.reset, h]

/-- Witness for C8 at concrete inputs: adding the Ace to the empty set and
removing the Ace from the singleton-Ace set. -/
theorem plusAssign_minusAssign_semantics_witness :
    RankSet.plusAssignRank ⟨0⟩ ⟨14⟩ = some (RankSet.set ⟨0⟩ ⟨14⟩) ∧
      RankSet.minusAssignRank ⟨0x1000⟩ ⟨14⟩ = some (RankSet.reset ⟨0x1000⟩ ⟨14⟩) :=
  ⟨(plusAssign_minusAssign_semantics ⟨0⟩ ⟨14⟩).1 (by decide),
   (plusAssign_minusAssign_semantics ⟨0x1000⟩ ⟨14⟩).2 (by decide)⟩

/-- C9: every RankSet operation, applied to valid RankSets and a valid Rank,
yields a value that still satisfies the 13-bit representation invariant
`value ≤ 8191` (the asserting operators are checked on their success results). -/
theorem rankSet_operations_preserve_invariant (s o : RankSet) (r : Rank)
    (hs : s.isValid) (ho : o.isValid) (hr : r.isValid) :
    (s.set r).isValid ∧ (s.reset r).isValid ∧ (s.flip r).isValid ∧
      s.complOp.isValid ∧ (s.orOp o).isValid ∧ (s.andOp o).isValid ∧
      (s.xorOp o).isValid ∧
      (s.plusAssignRank r).elim True RankSet.isValid ∧
      (s.minusAssignRank r).elim True RankSet.isValid ∧
      (s.plusAssignSet o).elim True RankSet.isValid ∧
      (s.minusAssignSet o).elim True RankSet.isValid := by
  have hmax : RankSet.maxVal = 2 ^ 13 - 1 := rfl
  have hs' : s.val < 2 ^ 13 := by
    have := hs; rw [RankSet.isValid, hmax] at this; omega
  have ho' : o.val < 2 ^ 13 := by
    have := ho; rw [RankSet.isValid, hmax] at this; omega
  have hm' : r.bitMask < 2 ^ 13 := Rank.bitMask_lt_of_isValid r hr
  have hset : (s.set r).isValid := by
    rw [RankSet.isValid, hmax]
    show s.val ||| r.bitMask ≤ 2 ^ 13 - 1
    have := Nat.or_lt_two_pow hs' hm'
    omega
  have hreset : (s.reset r).isValid := by
    rw [RankSet.isValid]
    calc s.val &&& (0xFFFF ^^^ r.bitMask) ≤ s.val := Nat.and_le_left
      _ ≤ RankSet.maxVal := hs
  have hflip : (s.flip r).isValid := by
    rw [RankSet.isValid, hmax]
    show s.val ^^^ r.bitMask ≤ 2 ^ 13 - 1
    have := Nat.xor_lt_two_pow hs' hm'
    omega
  refine ⟨hset, hreset, hflip, ?_, ?_, ?_, ?_, ?_, ?_, ?_, ?_⟩
  · rw [RankSet.isValid]
    exact Nat.and_le_right
  · rw [RankSet.isValid, hmax]
    show s.val ||| o.val ≤ 2 ^ 13 - 1
    have := Nat.or_lt_two_pow hs' ho'
    omega
  · rw [RankSet.isValid]
    calc s.val &&& o.val ≤ s.val := Nat.and_le_left
      _ ≤ RankSet.maxVal := hs
  · rw [RankSet.isValid, hmax]
    show s.val ^^^ o.val ≤ 2 ^ 13 - 1
    have := Nat.xor_lt_two_pow hs' ho'
    omega
  · rw [RankSet.plusAssignRank]
    split
    · exact hset
    · trivial
  · rw [RankSet.minusAssignRank]
    split
    · exact hreset
    · trivial
  · rw [RankSet.plusAssignSet]
    split
    · rw [Option.elim, RankSet.isValid, hmax]
      show s.val ||| o.val ≤ 2 ^ 13 - 1
      have := Nat.or_lt_two_pow hs' ho'
      omega
    · trivial
  · rw [RankSet.minusAssignSet]
    split
    · rw [Option.elim, RankSet.isValid]
      calc s.val &&& (0xFFFF ^^^ o.val) ≤ s.val := Nat.and_le_left
        _ ≤ RankSet.maxVal := hs
    · trivial

/-! ## Machinery for the table-filling loops -/

/-- Two ranks with equal values are equal. -/
theorem Rank.val_injective : ∀ {a b : Rank}, a.val = b.val → a = b := by
  rintro ⟨a⟩ ⟨b⟩ h
  simp only at h
  subst h
  rfl

/-- The ranks present in `s`, in the high-to-low scan order of the loops. -/
def presentList (s : RankSet) : List Rank :=
  Rank.highToLow.filter (fun r => s.test r)

theorem count_eq_length_presentList (s : RankSet) :
    s.count = (presentList s).length :=
  List.countP_eq_length_filter _ _

theorem presentList_sublist (s : RankSet) : (presentList s).Sublist Rank.highToLow :=
  List.filter_sublist _

theorem presentList_valid (s : RankSet) : ∀ r ∈ presentList s, r.isValid :=
  fun r hr => ranks_valid r ((presentList_sublist s).subset hr)

theorem presentList_sorted (s : RankSet) :
    (presentList s).Pairwise (fun a b => b.val < a.val) :=
  List.Pairwise.sublist (presentList_sublist s) ranks_sorted

theorem mem_presentList (s : RankSet) (r : Rank) :
    r ∈ presentList s ↔ r ∈ Rank.highToLow ∧ s.test r = true :=
  List.mem_filter

/-- When `r` is not among the present ranks the priority loop stores 0 for it. -/
theorem prioScan_eq_zero (s : RankSet) (r : Rank) :
    ∀ (L : List Rank) (ord : Nat), r ∉ L.filter (fun x => s.test x) →
      prioScan s r L ord = 0 := by
  intro L
  induction L with
  | nil => intro ord _; rfl
  | cons x rest ih =>
    intro ord hmem
    rw [List.filter_cons] at hmem
    by_cases hx : s.test x = true
    · rw [if_pos hx] at hmem
      have hxr : ¬(x = r) := fun h => hmem (h ▸ List.mem_cons_self x _)
      rw [prioScan, if_pos hx, if_neg hxr]
      exact ih (ord + 1) (fun h => hmem (List.mem_cons_of_mem x h))
    · rw [if_neg hx] at hmem
      by_cases hxr : x = r
      · rw [prioScan, if_neg hx, if_pos hxr]
      · rw [prioScan, if_neg hx, if_neg hxr]
        exact ih ord hmem

/-- When `r` is the `i`-th present rank (0-based, high to low) the priority
loop stores `ord + i + 1` for it. -/
theorem prioScan_eq_index (s : RankSet) (r : Rank) :
    ∀ (L : List Rank), L.Nodup → ∀ (ord i : Nat),
      (L.filter (fun x => s.test x))[i]? = some r →
      prioScan s r L ord = ord + i + 1 := by
  intro L
  induction L with
  | nil => intro _ ord i hr; simp at hr
  | cons x rest ih =>
    intro hnd ord i hr
    rw [List.nodup_cons] at hnd
    by_cases hx : s.test x = true
    · rw [List.filter_cons, if_pos hx] at hr
      match i with
      | 0 =>
        rw [List.getElem?_cons_zero, Option.some.injEq] at hr
        rw [prioScan, if_pos hx, if_pos hr]
      | j + 1 =>
        rw [List.getElem?_cons_succ] at hr
        have hrmem : r ∈ rest :=
          (List.filter_sublist rest).subset (List.getElem?_mem hr)
        have hxr : ¬(x = r) := fun h => hnd.1 (h ▸ hrmem)
        rw [prioScan, if_pos hx, if_neg hxr, ih hnd.2 (ord + 1) j hr]
        omega
    · rw [List.filter_cons, if_neg hx] at hr
      have hrmem : r ∈ rest.filter (fun x => s.test x) := List.getElem?_mem hr
      have hxr : ¬(x = r) := by
        intro h
        have ht : s.test r = true := (List.mem_filter.mp hrmem).2
        exact hx (h ▸ ht)
      rw [prioScan, if_neg hx, if_neg hxr]
      exact ih hnd.2 ord i hr

/-- Or of the bit masks of a list of ranks, as produced by repeated
`result += r` in the winRanks table-filling loop. -/
def orMasks : List Rank → Nat
  | [] => 0
  | x :: rest => x.bitMask ||| orMasks rest

theorem testBit_orMasks (M : List Rank) (hM : ∀ x ∈ M, x.isValid) (i : Nat) :
    (orMasks M).testBit i = true ↔ ∃ x ∈ M, x.val - 2 = i := by
  induction M with
  | nil => simp [orMasks, Nat.zero_testBit]
  | cons x rest ih =>
    have hx := hM x (List.mem_cons_self x rest)
    rw [orMasks, Nat.testBit_lor, Rank.bitMask_of_isValid x hx, Nat.testBit_two_pow]
    rw [Bool.or_eq_true, decide_eq_true_eq,
      ih (fun y hy => hM y (List.mem_cons_of_mem x hy))]
    constructor
    · rintro (h | ⟨y, hy, hye⟩)
      · exact ⟨x, List.mem_cons_self x rest, h⟩
      · exact ⟨y, List.mem_cons_of_mem x hy, hye⟩
    · rintro ⟨y, hy, hye⟩
      rcases List.mem_cons.mp hy with h | h
      · exact Or.inl (h ▸ hye)
      · exact Or.inr ⟨y, h, hye⟩

/-- Membership in `orMasks M` for a valid rank is list membership in `M`. -/
theorem test_orMasks (M : List Rank) (hM : ∀ x ∈ M, x.isValid) (r : Rank)
    (hr : r.isValid) :
    RankSet.test ⟨orMasks M⟩ r = true ↔ r ∈ M := by
  rw [RankSet.test_eq_testBit ⟨orMasks M⟩ r hr, testBit_orMasks M hM (r.val - 2)]
  constructor
  · rintro ⟨x, hxM, hxe⟩
    have hxv := hM x hxM
    have hv : x.val = r.val := by
      have h2x := hxv.1
      have h2r := hr.1
      omega
    exact (Rank.val_injective hv) ▸ hxM
  · intro h
    exact ⟨r, h, rfl⟩

/-- The number of elements of a duplicate-free list that belong to one of its
sublists is the length of the sublist. -/
theorem countP_mem_sublist {α : Type} [DecidableEq α] :
    ∀ {M L : List α}, M.Sublist L → L.Nodup →
      L.countP (fun x => decide (x ∈ M)) = M.length := by
  intro M L h
  induction h with
  | slnil => intro _; rfl
  | @cons M' l y h ih =>
    intro hnd
    rw [List.nodup_cons] at hnd
    have hy : ¬(y ∈ M') := fun hmem => hnd.1 (h.subset hmem)
    simp [List.countP_cons, hy, ih hnd.2]
  | @cons₂ M' l y h ih =>
    intro hnd
    rw [List.nodup_cons] at hnd
    have hcongr : l.countP (fun x => decide (x ∈ y :: M')) =
        l.countP (fun x => decide (x ∈ M')) := by
      apply List.countP_congr
      intro x hx
      have hxy : ¬(x = y) := fun hh => hnd.1 (hh ▸ hx)
      simp [List.mem_cons, hxy]
    rw [List.countP_cons, hcongr, ih hnd.2]
    simp [List.mem_cons]

/-- Counting the members of `orMasks M` for a sublist `M` of the rank list
gives the length of `M`. -/
theorem count_orMasks (M : List Rank) (hsub : M.Sublist Rank.highToLow) :
    RankSet.count ⟨orMasks M⟩ = M.length := by
  have hval : ∀ x ∈ M, x.isValid := fun x hx => ranks_valid x (hsub.subset hx)
  rw [RankSet.count]
  rw [List.countP_congr (q := fun x => decide (x ∈ M)) ?_]
  · exact countP_mem_sublist hsub ranks_nodup
  · intro x hxL
    rw [decide_eq_true_eq]
    exact test_orMasks M hval x (ranks_valid x hxL)

/-- Characterization of the winRanks inner loop: starting at `nextBitNo = nb`,
it ors together the masks of the first `lw + 1 - nb` present ranks. -/
theorem winLoop_eq (s : RankSet) (lw : Nat) :
    ∀ (L : List Rank) (nb acc : Nat),
      winLoop s lw L nb acc =
        acc ||| orMasks ((L.filter (fun x => s.test x)).take (lw + 1 - nb)) := by
  intro L
  induction L with
  | nil => intro nb acc; simp [winLoop, orMasks, Nat.or_zero]
  | cons x rest ih =>
    intro nb acc
    by_cases hx : s.test x = true
    · by_cases hnb : nb ≤ lw
      · rw [winLoop, if_pos hx, if_pos hnb, ih (nb + 1) (acc ||| x.bitMask)]
        rw [List.filter_cons, if_pos hx]
        have h1 : lw + 1 - nb = (lw + 1 - (nb + 1)) + 1 := by omega
        rw [h1, List.take_succ_cons, orMasks, Nat.or_assoc]
      · rw [winLoop, if_pos hx, if_neg hnb]
        have h0 : lw + 1 - nb = 0 := by omega
        rw [List.filter_cons, if_pos hx, h0, List.take_zero, orMasks, Nat.or_zero]
    · rw [winLoop, if_neg hx, ih nb acc, List.filter_cons, if_neg hx]

/-- Find over a list is the head of its filtered sublist. -/
theorem find?_eq_head?_filter {α : Type} (p : α → Bool) :
    ∀ L : List α, L.find? p = (L.filter p).head? := by
  intro L
  induction L with
  | nil => rfl
  | cons x xs ih =>
    by_cases h : p x = true
    · rw [List.find?_cons_of_pos xs h, List.filter_cons, if_pos h, List.head?_cons]
    · rw [List.find?_cons_of_neg xs h, List.filter_cons, if_neg h, ih]

/-- A nonzero priority-table entry is surfaced as a present Priority. -/
theorem priorityIfInHand_eq_some (s : RankSet) (r : Rank) (h2 : 2 ≤ r.val)
    (k : Nat) (hscan : prioScan s r Rank.highToLow 0 = k) (hk : k ≠ 0) :
    s.priorityIfInHand r = some k := by
  rw [RankSet.priorityIfInHand, if_neg (by omega), hscan]
  cases k with
  | zero => exact absurd rfl hk
  | succ n => rfl

/-- A zero priority-table entry is surfaced as an absent Priority. -/
theorem priorityIfInHand_eq_none (s : RankSet) (r : Rank)
    (hscan : prioScan s r Rank.highToLow 0 = 0) :
    s.priorityIfInHand r = none := by
  rw [RankSet.priorityIfInHand]
  by_cases h : r.val < 2
  · rw [if_pos h]
  · rw [if_neg h, hscan]

/-- Inversion: a present Priority comes from a nonzero table entry. -/
theorem priorityIfInHand_inv (s : RankSet) (r : Rank) (k : Nat)
    (h : s.priorityIfInHand r = some k) :
    prioScan s r Rank.highToLow 0 = k ∧ k ≠ 0 ∧ 2 ≤ r.val := by
  rw [RankSet.priorityIfInHand] at h
  by_cases h2 : r.val < 2
  · rw [if_pos h2] at h
    exact absurd h (by simp)
  · rw [if_neg h2] at h
    rcases hscan : prioScan s r Rank.highToLow 0 with _ | n
    · rw [hscan] at h
      exact absurd h (by simp)
    · rw [hscan] at h
      have hk : n + 1 = k := by
        have hsome : some (n + 1) = some k := h
        exact Option.some.injEq _ _ ▸ (Option.some.injEq (n+1) k).mp hsome
      exact ⟨hk ▸ rfl, by omega, by omega⟩

/-- A valid RankSet value is below `2 ^ 13`. -/
theorem val_lt_two_pow_13 (s : RankSet) (hs : s.isValid) : s.val < 2 ^ 13 := by
  have h := hs
  rw [RankSet.isValid] at h
  have hm : RankSet.maxVal = 8191 := rfl
  have hp : (2 : Nat) ^ 13 = 8192 := by norm_num
  omega

/-- Bits at or above the 13th are clear in a valid RankSet. -/
theorem testBit_eq_false_of_ge (s : RankSet) (hs : s.isValid) (i : Nat)
    (hi : 13 ≤ i) : s.val.testBit i = false :=
  Nat.testBit_lt_two_pow
    (lt_of_lt_of_le (val_lt_two_pow_13 s hs) (Nat.pow_le_pow_right (by norm_num) hi))

/-- Bit `i < 13` of the value is the membership test of rank `i + 2`. -/
theorem testBit_eq_test (s : RankSet) (i : Nat) (hi : i < 13) :
    s.val.testBit i = s.test ⟨i + 2⟩ := by
  have h := RankSet.test_eq_testBit s ⟨i + 2⟩
    ⟨by show 2 ≤ i + 2; omega, by show i + 2 ≤ 14; omega⟩
  rw [Nat.add_sub_cancel] at h
  exact h.symm

/-- A valid RankSet with no present ranks has value 0. -/
theorem val_eq_zero_of_presentList_eq_nil (s : RankSet) (hs : s.isValid)
    (h : presentList s = []) : s.val = 0 := by
  apply Nat.eq_of_testBit_eq
  intro i
  rw [Nat.zero_testBit]
  by_cases hi : i < 13
  · have hmem := rank_of_bit_mem i hi
    have hw : s.test ⟨i + 2⟩ = false := by
      rcases ht : s.test ⟨i + 2⟩ with _ | _
      · rfl
      · exfalso
        have hin : (⟨i + 2⟩ : Rank) ∈ presentList s :=
          (mem_presentList s _).mpr ⟨hmem, ht⟩
        rw [h] at hin
        cases hin
    rw [testBit_eq_test s i hi, hw]
  · exact testBit_eq_false_of_ge s hs i (by omega)

/-- Pointwise effect of `set` on membership of valid ranks. -/
theorem test_set (s : RankSet) (r x : Rank) (hr : r.isValid) (hx : x.isValid) :
    (s.set r).test x = (s.test x || decide (x = r)) := by
  rw [RankSet.test_eq_testBit _ x hx, RankSet.test_eq_testBit s x hx]
  show (s.val ||| r.bitMask).testBit (x.val - 2) = _
  rw [Rank.bitMask_of_isValid r hr, Nat.testBit_lor, Nat.testBit_two_pow]
  congr 1
  rw [decide_eq_decide]
  constructor
  · intro hv
    apply Rank.val_injective
    have h2r := hr.1
    have h2x := hx.1
    omega
  · intro hv
    subst hv
    rfl

/-- Pointwise effect of `reset` on membership of valid ranks. -/
theorem test_reset (s : RankSet) (r x : Rank) (hr : r.isValid) (hx : x.isValid) :
    (s.reset r).test x = (s.test x && !decide (x = r)) := by
  rw [RankSet.test_eq_testBit _ x hx, RankSet.test_eq_testBit s x hx]
  show (s.val &&& (0xFFFF ^^^ r.bitMask)).testBit (x.val - 2) = _
  rw [Rank.bitMask_of_isValid r hr, Nat.testBit_land, Nat.testBit_xor,
    show (0xFFFF : Nat) = 2 ^ 16 - 1 from rfl, Nat.testBit_two_pow_sub_one,
    Nat.testBit_two_pow]
  have hlt : x.val - 2 < 16 := by
    have := hx.2
    omega
  rw [decide_eq_true hlt, Bool.true_xor]
  congr 1
  congr 1
  rw [decide_eq_decide]
  constructor
  · intro hv
    apply Rank.val_injective
    have h2r := hr.1
    have h2x := hx.1
    omega
  · intro hv
    subst hv
    rfl

/-- Changing the truth of a predicate at exactly one element of a
duplicate-free list raises the count by one. -/
theorem countP_flip_one {α : Type} [DecidableEq α] :
    ∀ (L : List α) (p q : α → Bool) (r : α), L.Nodup → r ∈ L →
      p r = false → q r = true → (∀ x ∈ L, ¬(x = r) → q x = p x) →
      L.countP q = L.countP p + 1 := by
  intro L
  induction L with
  | nil => intro p q r _ hmem; cases hmem
  | cons y l ih =>
    intro p q r hnd hmem hp hq hagree
    rw [List.nodup_cons] at hnd
    rw [List.countP_cons, List.countP_cons]
    rcases List.mem_cons.mp hmem with hyr | hyr
    · subst hyr
      have hcong : l.countP q = l.countP p := by
        apply List.countP_congr
        intro x hx
        have hxr : ¬(x = r) := fun hh => hnd.1 (hh ▸ hx)
        rw [hagree x (List.mem_cons_of_mem r hx) hxr]
      rw [hcong, hp, hq]
      simp
    · have hyne : ¬(y = r) := fun hh => hnd.1 (hh ▸ hyr)
      have hyq : q y = p y := hagree y (List.mem_cons_self y l) hyne
      rw [hyq, ih p q r hnd.2 hyr hp hq
        (fun x hx hxr => hagree x (List.mem_cons_of_mem y hx) hxr)]
      omega

/-- Witness for C9 at concrete valid inputs. -/
theorem rankSet_operations_preserve_invariant_witness :
    (RankSet.set ⟨0x0AAA⟩ ⟨7⟩).isValid ∧ (RankSet.reset ⟨0x0AAA⟩ ⟨7⟩).isValid ∧
      (RankSet.flip ⟨0x0AAA⟩ ⟨7⟩).isValid ∧ (RankSet.complOp ⟨0x0AAA⟩).isValid ∧
      (RankSet.orOp ⟨0x0AAA⟩ ⟨0x1555⟩).isValid ∧
      (RankSet.andOp ⟨0x0AAA⟩ ⟨0x1555⟩).isValid ∧
      (RankSet.xorOp ⟨0x0AAA⟩ ⟨0x1555⟩).isValid ∧
      (RankSet.plusAssignRank ⟨0x0AAA⟩ ⟨7⟩).elim True RankSet.isValid ∧
      (RankSet.minusAssignRank ⟨0x0AAA⟩ ⟨7⟩).elim True RankSet.isValid ∧
      (RankSet.plusAssignSet ⟨0x0AAA⟩ ⟨0x1555⟩).elim True RankSet.isValid ∧
      (RankSet.minusAssignSet ⟨0x0AAA⟩ ⟨0x1555⟩).elim True RankSet.isValid :=
  rankSet_operations_preserve_invariant ⟨0x0AAA⟩ ⟨0x1555⟩ ⟨7⟩
    (by decide) (by decide) (by decide)

/-! ## Claim theorems: winRanks (C5), priorities (C6), set/reset counting (C7)
and toSingleRank (C10) -/

/-- C5: for every RankSet S and every k with 0 <= k <= 13, `S.winRanks k` has
exactly `min k S.count` members; every member is at least as high as the k-th
highest member of S (the rank of priority k), and `S.winRanks 0` is empty. -/
theorem winRanks_members (s : RankSet) (k : Nat) (hk : k ≤ 13) :
    (s.winRanks k).count = min k s.count ∧
      (∀ r : Rank, r.isValid → (s.winRanks k).test r = true →
        ∀ m : Rank, s.priorityIfInHand m = some k → m.val ≤ r.val) ∧
      s.winRanks 0 = ⟨0⟩ := by
  have hwin : k ≠ 0 → s.winRanks k = ⟨orMasks ((presentList s).take k)⟩ := by
    intro hk0
    rw [RankSet.winRanks, if_neg hk0, winLoop_eq]
    rw [Nat.zero_or]
    rfl
  have hsubtake : ((presentList s).take k).Sublist Rank.highToLow :=
    (List.take_sublist k _).trans (presentList_sublist s)
  refine ⟨?_, ?_, rfl⟩
  · by_cases hk0 : k = 0
    · subst hk0
      have h1 : s.winRanks 0 = ⟨0⟩ := rfl
      have h2 : RankSet.count ⟨0⟩ = 0 := by decide
      rw [h1, h2, Nat.zero_min]
    · rw [hwin hk0, count_orMasks _ hsubtake, List.length_take,
        count_eq_length_presentList]
  · intro r hr hrt m hm
    obtain ⟨hscan, hk0, h2m⟩ := priorityIfInHand_inv s m k hm
    have hmmem : m ∈ presentList s := by
      by_contra hnot
      have hz := prioScan_eq_zero s m Rank.highToLow 0 hnot
      exact hk0 (hscan.symm.trans hz)
    obtain ⟨i, hi, hie⟩ := List.mem_iff_getElem.mp hmmem
    have hidx : prioScan s m Rank.highToLow 0 = 0 + i + 1 := by
      apply prioScan_eq_index s m Rank.highToLow ranks_nodup 0 i
      show (presentList s)[i]? = some m
      rw [List.getElem?_eq_getElem hi, hie]
    have hik : k = i + 1 := by omega
    rw [hwin hk0] at hrt
    have hrmem : r ∈ (presentList s).take k :=
      (test_orMasks _ (fun x hx => ranks_valid x (hsubtake.subset hx)) r hr).mp hrt
    obtain ⟨j, hj, hje⟩ := List.mem_iff_getElem.mp hrmem
    have hjlt : j < k := by
      have h := hj
      rw [List.length_take] at h
      omega
    have hjF : j < (presentList s).length := by
      have h := hj
      rw [List.length_take] at h
      omega
    rw [List.getElem_take] at hje
    rcases Nat.lt_or_ge j i with hji | hji
    · have hp := List.pairwise_iff_getElem.mp (presentList_sorted s) j i hjF hi hji
      rw [hie, hje] at hp
      omega
    · have hji' : j = i := by omega
      subst hji'
      have hmr : m = r := hie.symm.trans hje
      rw [hmr]

/-- Witness for C5 at the concrete set {A, Q, 9, 5} (value 5256) and k = 3:
the win ranks have min 3 4 = 3 members; the member Q (12) is at least the
3rd-highest rank 9; winRanks 0 is empty. -/
theorem winRanks_members_witness :
    (RankSet.winRanks ⟨5256⟩ 3).count = min 3 (RankSet.count ⟨5256⟩) ∧
      (⟨9⟩ : Rank).val ≤ (⟨12⟩ : Rank).val ∧
      RankSet.winRanks ⟨5256⟩ 0 = ⟨0⟩ :=
  ⟨(winRanks_members ⟨5256⟩ 3 (by decide)).1,
   (winRanks_members ⟨5256⟩ 3 (by decide)).2.1 ⟨12⟩ (by decide) (by decide)
     ⟨9⟩ (by decide),
   (winRanks_members ⟨5256⟩ 3 (by decide)).2.2⟩

/-- C6: for a non-empty valid RankSet the highest rank has priority 1; the
priorities of the present ranks, scanned from high rank to low, are exactly
1, 2, ..., count (a permutation of 1..count increasing as rank decreases);
and a rank not in the set gets an absent priority. -/
theorem priority_order (s : RankSet) (hs : s.isValid) :
    (s.anyOp = true →
        s.highestRank.bind (fun h => s.priorityIfInHand h) = some 1) ∧
      ((presentList s).map (fun r => s.priorityIfInHand r) =
        (List.range' 1 s.count).map some) ∧
      (∀ r : Rank, r.isValid → s.test r = false → s.priorityIfInHand r = none) := by
  have hvalid : ∀ r ∈ presentList s, r.isValid := presentList_valid s
  refine ⟨?_, ?_, ?_⟩
  · intro hany
    rcases hF : presentList s with _ | ⟨h, t⟩
    · exfalso
      have h0 := val_eq_zero_of_presentList_eq_nil s hs hF
      rw [RankSet.anyOp, decide_eq_true_eq] at hany
      exact hany h0
    · have hhr : s.highestRank = some h := by
        rw [RankSet.highestRank, find?_eq_head?_filter]
        show (presentList s).head? = some h
        rw [hF]
        rfl
      rw [hhr]
      show s.priorityIfInHand h = some 1
      have hmem : h ∈ presentList s := by
        rw [hF]
        exact List.mem_cons_self h t
      have h2 : 2 ≤ h.val := (hvalid h hmem).1
      apply priorityIfInHand_eq_some s h h2 1 ?_ (by omega)
      have hsc := prioScan_eq_index s h Rank.highToLow ranks_nodup 0 0 ?_
      · simpa using hsc
      · show (presentList s)[0]? = some h
        rw [hF, List.getElem?_cons_zero]
  · apply List.ext_getElem
    · rw [List.length_map, List.length_map, List.length_range',
        count_eq_length_presentList]
    · intro i h1 h2
      rw [List.getElem_map, List.getElem_map, List.getElem_range']
      have hiF : i < (presentList s).length := by simpa using h1
      have hmem : (presentList s)[i] ∈ presentList s := List.getElem_mem hiF
      have h2v : 2 ≤ ((presentList s)[i]).val := (hvalid _ hmem).1
      have hidx := prioScan_eq_index s ((presentList s)[i]) Rank.highToLow
        ranks_nodup 0 i ?_
      · rw [priorityIfInHand_eq_some s _ h2v (0 + i + 1) hidx (by omega)]
        congr 1
        omega
      · show (presentList s)[i]? = some ((presentList s)[i])
        exact List.getElem?_eq_getElem hiF
  · intro r hr ht
    apply priorityIfInHand_eq_none
    apply prioScan_eq_zero
    intro hmem
    have hmem' := (mem_presentList s r).mp hmem
    rw [ht] at hmem'
    exact Bool.noConfusion hmem'.2

/-- Witness for C6 at the concrete set {A, Q, 9, 5} (value 5256): the highest
rank has priority 1, the priorities are [1, 2, 3, 4], and the absent rank 4
has no priority. -/
theorem priority_order_witness :
    (RankSet.highestRank ⟨5256⟩).bind
        (fun h => RankSet.priorityIfInHand ⟨5256⟩ h) = some 1 ∧
      (presentList ⟨5256⟩).map (fun r => RankSet.priorityIfInHand ⟨5256⟩ r) =
        (List.range' 1 (RankSet.count ⟨5256⟩)).map some ∧
      RankSet.priorityIfInHand ⟨5256⟩ ⟨4⟩ = none :=
  ⟨(priority_order ⟨5256⟩ (by decide)).1 (by decide),
   (priority_order ⟨5256⟩ (by decide)).2.1,
   (priority_order ⟨5256⟩ (by decide)).2.2 ⟨4⟩ (by decide) (by decide)⟩

/-- C7: setting an absent valid rank increases the count by one and makes the
rank test positive; resetting a present rank decreases the count by one. -/
theorem set_reset_count (s : RankSet) (r : Rank) (hr : r.isValid) :
    (s.test r = false →
        (s.set r).count = s.count + 1 ∧ (s.set r).test r = true) ∧
      (s.test r = true → (s.reset r).count = s.count - 1) := by
  have hrmem := mem_ranks_of_isValid r hr
  constructor
  · intro h
    constructor
    · apply countP_flip_one Rank.highToLow (fun x => s.test x)
        (fun x => (s.set r).test x) r ranks_nodup hrmem h
      · rw [test_set s r r hr hr]
        simp
      · intro x hx hxr
        rw [test_set s r x hr (ranks_valid x hx)]
        simp [hxr]
    · rw [test_set s r r hr hr]
      simp
  · intro h
    have key : s.count = (s.reset r).count + 1 := by
      apply countP_flip_one Rank.highToLow (fun x => (s.reset r).test x)
        (fun x => s.test x) r ranks_nodup hrmem
      · rw [test_reset s r r hr hr]
        simp
      · exact h
      · intro x hx hxr
        rw [test_reset s r x hr (ranks_valid x hx)]
        simp [hxr]
    omega

/-- Witness for C7: adding the absent rank 4 to {A, Q, 9, 5} (value 5256)
raises the count, and removing the present rank 9 lowers it. -/
theorem set_reset_count_witness :
    ((RankSet.set ⟨5256⟩ ⟨4⟩).count = RankSet.count ⟨5256⟩ + 1 ∧
        (RankSet.set ⟨5256⟩ ⟨4⟩).test ⟨4⟩ = true) ∧
      (RankSet.reset ⟨5256⟩ ⟨9⟩).count = RankSet.count ⟨5256⟩ - 1 :=
  ⟨(set_reset_count ⟨5256⟩ ⟨4⟩ (by decide)).1 (by decide),
   (set_reset_count ⟨5256⟩ ⟨9⟩ (by decide)).2 (by decide)⟩

/-- C10: for a valid RankSet, toSingleRank returns the contained rank (the
highest -- and only -- present rank) exactly when the set has one member, and
returns the absent value for the empty set and for sets of two or more. -/
theorem toSingleRank_single (s : RankSet) (hs : s.isValid) :
    (s.count = 1 → s.toSingleRank = s.highestRank ∧ s.toSingleRank ≠ none) ∧
      (s.count ≠ 1 → s.toSingleRank = none) := by
  constructor
  · intro hc
    rw [count_eq_length_presentList] at hc
    obtain ⟨r, hF⟩ := List.length_eq_one.mp hc
    have hmem : r ∈ presentList s := by
      rw [hF]
      exact List.mem_cons_self r []
    have hrv := presentList_valid s r hmem
    have hiffv : ∀ i : Nat, i < 13 → ((r.val - 2 = i) ↔ (⟨i + 2⟩ : Rank) = r) := by
      intro i hi
      constructor
      · intro hv
        apply Rank.val_injective
        show i + 2 = r.val
        have := hrv.1
        omega
      · intro he
        have hv : r.val = i + 2 := by rw [← he]
        omega
    have hval : s.val = 2 ^ (r.val - 2) := by
      apply Nat.eq_of_testBit_eq
      intro i
      rw [Nat.testBit_two_pow]
      by_cases hi : i < 13
      · rw [testBit_eq_test s i hi]
        have hmemL := rank_of_bit_mem i hi
        rcases ht : s.test ⟨i + 2⟩ with _ | _
        · have hne : ¬((⟨i + 2⟩ : Rank) = r) := by
            intro he
            have htr : s.test r = true := ((mem_presentList s r).mp hmem).2
            rw [← he] at htr
            exact Bool.noConfusion (ht.symm.trans htr)
          have : ¬(r.val - 2 = i) := fun hv => hne ((hiffv i hi).mp hv)
          simp [this]
        · have hin : (⟨i + 2⟩ : Rank) ∈ presentList s :=
            (mem_presentList s _).mpr ⟨hmemL, ht⟩
          rw [hF] at hin
          have he : (⟨i + 2⟩ : Rank) = r := by simpa using hin
          have : r.val - 2 = i := (hiffv i hi).mpr he
          simp [this]
      · rw [testBit_eq_false_of_ge s hs i (by omega)]
        have h14 := hrv.2
        have : ¬(r.val - 2 = i) := by omega
        simp [this]
    obtain ⟨rv⟩ := r
    have h2 : 2 ≤ rv := hrv.1
    have h14 : rv ≤ 14 := hrv.2
    obtain ⟨v⟩ := s
    have hval' : v = 2 ^ (rv - 2) := hval
    interval_cases rv <;> (subst hval' ; decide)
  · intro hc
    obtain ⟨v⟩ := s
    show (match v with
      | 0x1000 => some (⟨14⟩ : Rank)
      | 0x0800 => some ⟨13⟩
      | 0x0400 => some ⟨12⟩
      | 0x0200 => some ⟨11⟩
      | 0x0100 => some ⟨10⟩
      | 0x0080 => some ⟨9⟩
      | 0x0040 => some ⟨8⟩
      | 0x0020 => some ⟨7⟩
      | 0x0010 => some ⟨6⟩
      | 0x0008 => some ⟨5⟩
      | 0x0004 => some ⟨4⟩
      | 0x0002 => some ⟨3⟩
      | 0x0001 => some ⟨2⟩
      | 0x0000 => none
      | _ => none) = none
    split
    · exact absurd (by decide) hc
    · exact absurd (by decide) hc
    · exact absurd (by decide) hc
    · exact absurd (by decide) hc
    · exact absurd (by decide) hc
    · exact absurd (by decide) hc
    · exact absurd (by decide) hc
    · exact absurd (by decide) hc
    · exact absurd (by decide) hc
    · exact absurd (by decide) hc
    · exact absurd (by decide) hc
    · exact absurd (by decide) hc
    · exact absurd (by decide) hc
    · rfl
    · rfl

/-- Witness for C10: the one-member set {6} (value 16) yields its rank; the
four-member set {A, Q, 9, 5} (value 5256) yields the absent value. -/
theorem toSingleRank_single_witness :
    (RankSet.toSingleRank ⟨16⟩ = RankSet.highestRank ⟨16⟩ ∧
        RankSet.toSingleRank ⟨16⟩ ≠ none) ∧
      RankSet.toSingleRank ⟨5256⟩ = none :=
  ⟨(toSingleRank_single ⟨16⟩ (by decide)).1 (by decide),
   (toSingleRank_single ⟨5256⟩ (by decide)).2 (by decide)⟩

end DDS
